import Mathlib

/-!
# LinearConeTransform: a verification development

The repository's visible source (`src/LinearConeTransform.hpp`) declares a
single pipeline stage

    class LinearConeTransform : public ProblemTransform {
      virtual Problem transform(const Problem& problem);
    };

whose implementation (the transform body and the `Problem` / cone-descriptor
data model) is not part of the visible sources.  The definitions below are a
shallow embedding of that stage.  Every definition whose C++ counterpart is
missing carries a doc comment starting `Modelled from the spec:` and is a
direct transcription of the design document's data model (§3) and algorithm
(§4.2).
-/

namespace CVX

/-- Modelled from the spec: constraint relations.  The data model (§3) lists
`<=`, `>=`, `=`; strict inequalities `<`, `>` may appear in an input but are
out of scope for the stage (§4.2) and are rejected. -/
inductive Rel where
  | le | ge | eq | lt | gt
deriving DecidableEq, Repr

/-- Modelled from the spec: one term of a left-hand expression.  A linear
term is a coefficient times a variable; a `nonlin` term stands for a
construct the linear-only stage cannot lower (§4.1 error conditions), here a
coefficient times a variable raised to a power. -/
inductive Term where
  | lin (coeff : Int) (var : Nat)
  | nonlin (coeff : Int) (var : Nat) (power : Nat)
deriving DecidableEq, Repr

/-- The variable identifier a term references. -/
def Term.var : Term → Nat
  | .lin _ v => v
  | .nonlin _ v _ => v

/-- Whether a term is one the linear-only stage cannot lower. -/
def Term.isNonlin : Term → Bool
  | .lin _ _ => false
  | .nonlin _ _ _ => true

/-- Modelled from the spec: a constraint record — left-hand expression,
relation, right-hand constant (§3). -/
structure Constraint where
  lhs : List Term
  rel : Rel
  rhs : Int
deriving DecidableEq, Repr

/-- Modelled from the spec: objective sense. -/
inductive Sense where
  | minimize | maximize
deriving DecidableEq, Repr

/-- Modelled from the spec: the objective — a mapping from variable
identifier to coefficient, a constant offset, and a sense (§3). -/
structure Objective where
  cost : List (Nat × Int)
  offset : Int
  sense : Sense
deriving DecidableEq, Repr

/-- Modelled from the spec: elementary cone kinds recognized by this stage
(§3): zero cone (equality), nonnegative orthant (inequality), free cone. -/
inductive ConeKind where
  | zero | nonneg | free
deriving DecidableEq, Repr

/-- Modelled from the spec: metadata entries carried across transforms (§3):
the original-constraint → slack-variable mapping and the cost-negation
record written by this stage, plus opaque entries from other stages. -/
inductive MetaEntry where
  | slack (origIndex : Nat) (slackVar : Nat)
  | negatedCost
  | other (tag : Nat) (value : Int)
deriving DecidableEq, Repr

/-- Modelled from the spec: the `Problem` data model (§3).  The transformed
problem is the same entity type (§3): its rows live in `constraints` (all
with relation `=` after lowering) and its cone descriptor in `cones`.
Variables are bare identifiers; the optional domain hints of §3 play no role
in this stage and are omitted. -/
structure Problem where
  objective : Objective
  vars : List Nat
  constraints : List Constraint
  cones : List (ConeKind × Nat)
  metadata : List MetaEntry
deriving DecidableEq, Repr

/-- Modelled from the spec: the typed error taxonomy (§7). -/
inductive TransformError where
  | UnsupportedProblemShape
  | MalformedProblem
deriving DecidableEq, Repr

/-- Whether a relation is a strict inequality (out of scope, §4.2). -/
def Rel.isStrict : Rel → Bool
  | .lt => true
  | .gt => true
  | _ => false

/-- Whether a constraint is a non-strict inequality. -/
def Constraint.isIneq (c : Constraint) : Bool :=
  c.rel == Rel.le || c.rel == Rel.ge

/-- Whether a constraint is an equality. -/
def Constraint.isEq (c : Constraint) : Bool :=
  c.rel == Rel.eq

/-- Whether a constraint uses a construct the stage cannot lower: a strict
relation or a nonlinear term. -/
def Constraint.unsupported (c : Constraint) : Bool :=
  c.rel.isStrict || c.lhs.any Term.isNonlin

/-- All variable identifiers a problem mentions anywhere: the variable set,
the constraint left-hand sides, and the objective cost mapping. -/
def Problem.allIds (p : Problem) : List Nat :=
  p.vars ++ p.constraints.flatMap (fun c => c.lhs.map Term.var)
    ++ p.objective.cost.map Prod.fst

/-- Identifiers referenced by constraints or the objective; each must appear
in `variables` (§3 invariants). -/
def Problem.referencedIds (p : Problem) : List Nat :=
  p.constraints.flatMap (fun c => c.lhs.map Term.var)
    ++ p.objective.cost.map Prod.fst

/-- Whether the problem has a dangling variable reference (§3 invariants,
§7 `MalformedProblem`). -/
def Problem.hasDangling (p : Problem) : Bool :=
  p.referencedIds.any (fun v => !(p.vars.contains v))

/-- First fresh identifier: strictly greater than every identifier the
problem mentions, so slack identifiers never collide with existing ones. -/
def Problem.freshBase (p : Problem) : Nat :=
  p.allIds.foldr Nat.max 0 + 1

/-- Equality constraints of the input, in their original relative order
(§4.2 step 1). -/
def Problem.eqParts (p : Problem) : List Constraint :=
  p.constraints.filter Constraint.isEq

/-- Inequality constraints of the input, paired with their index in the
original `constraints` list, in their original relative order (§4.2 step 1). -/
def Problem.ineqParts (p : Problem) : List (Nat × Constraint) :=
  p.constraints.enum.filter (fun ic => ic.2.isIneq)

/-- Number of equality constraints. -/
def Problem.countEq (p : Problem) : Nat :=
  (p.constraints.filter Constraint.isEq).length

/-- Number of (non-strict) inequality constraints. -/
def Problem.countIneq (p : Problem) : Nat :=
  (p.constraints.filter Constraint.isIneq).length

/-- Sign with which a slack enters a rewritten inequality row: `lhs <= rhs`
becomes `lhs + slack = rhs`, `lhs >= rhs` becomes `lhs - slack = rhs`
(§4.2 step 3). -/
def Rel.slackSign : Rel → Int
  | .ge => -1
  | _ => 1

/-- Modelled from the spec: the row emitted for the `j`-th inequality
constraint, with fresh slack identifier `base + j` (§4.2 step 3). -/
def ineqRow (base j : Nat) (c : Constraint) : Constraint :=
  { lhs := c.lhs ++ [Term.lin c.rel.slackSign (base + j)]
    rel := Rel.eq
    rhs := c.rhs }

/-- Rows emitted for the inequality partition, in original relative order. -/
def Problem.ineqRows (p : Problem) : List Constraint :=
  p.ineqParts.enum.map (fun jc => ineqRow p.freshBase jc.1 jc.2.2)

/-- Slack variable identifiers appended to the variable set. -/
def Problem.slackVars (p : Problem) : List Nat :=
  (List.range p.ineqParts.length).map (fun j => p.freshBase + j)

/-- Metadata written by the stage: original-constraint → slack-variable for
each inequality row (§4.2 step 3). -/
def Problem.slackMeta (p : Problem) : List MetaEntry :=
  p.ineqParts.enum.map (fun jc => MetaEntry.slack jc.2.1 (p.freshBase + jc.1))

/-- Metadata recording sense normalization: the negation record when the
original sense was maximize (§4.2 step 5), nothing otherwise. -/
def Problem.senseMeta (p : Problem) : List MetaEntry :=
  match p.objective.sense with
  | .maximize => [MetaEntry.negatedCost]
  | .minimize => []

/-- Modelled from the spec: sense normalization of the objective (§4.2
step 5): negate the cost mapping (and the offset, so the optimal value can
be un-negated) when the original sense was maximize; the output sense is
always minimize.  Slack variables are absent from the mapping and therefore
carry zero cost. -/
def normalizeObjective (o : Objective) : Objective :=
  match o.sense with
  | .minimize => { o with sense := .minimize }
  | .maximize =>
      { cost := o.cost.map (fun vc => (vc.1, -vc.2))
        offset := -o.offset
        sense := .minimize }

/-- Modelled from the spec: construction of the transformed problem (§4.2
steps 1–6), applied after validation has accepted the input: equality rows
first, then rewritten inequality rows; cone descriptor
`[zero-cone(count_eq), nonneg-orthant(count_ineq)]`; variable set widened by
the slacks; metadata accumulated monotonically (slack mapping, then the
cost-negation record when the sense was maximize). -/
def transformCore (p : Problem) : Problem :=
  { objective := normalizeObjective p.objective
    vars := p.vars ++ p.slackVars
    constraints := p.eqParts ++ p.ineqRows
    cones := [(ConeKind.zero, p.countEq), (ConeKind.nonneg, p.countIneq)]
    metadata := p.metadata ++ p.slackMeta ++ p.senseMeta }

/-- Modelled from the spec: `LinearConeTransform::transform` (§4.2, §7).
Validation happens before any construction, so a failure returns no partial
output; unsupported constructs (strict relations, nonlinear terms) are
checked before the data-model invariants, so `UnsupportedProblemShape`
takes precedence over `MalformedProblem` when both defects are present —
the spec fixes no precedence between the two error kinds. -/
def transform (p : Problem) : Except TransformError Problem :=
  if p.constraints.any Constraint.unsupported then
    .error .UnsupportedProblemShape
  else if p.hasDangling then
    .error .MalformedProblem
  else
    .ok (transformCore p)

/-- Cost coefficient of a variable under a cost mapping: the first binding
for the variable, zero when absent. -/
def costCoeff (cost : List (Nat × Int)) (v : Nat) : Int :=
  match cost.find? (fun vc => vc.1 == v) with
  | some vc => vc.2
  | none => 0

/-- The cost vector of a problem: the cost coefficient of each variable, in
variable order (§8 end-to-end example). -/
def Problem.costVector (p : Problem) : List Int :=
  p.vars.map (costCoeff p.objective.cost)

/-- Total dimension of all blocks of a given kind in a cone descriptor. -/
def coneDim (cones : List (ConeKind × Nat)) (k : ConeKind) : Nat :=
  (cones.filter (fun kd => kd.1 == k)).foldr (fun kd s => kd.2 + s) 0

/-! ## Concrete problems used as evaluation points -/

/-- The worked example of §8: variables `x, y` (identifiers 0, 1), objective
minimize `x + 2y`, constraints `x + y <= 4` and `x - y = 1`. -/
def exMain : Problem :=
  { objective := { cost := [(0, 1), (1, 2)], offset := 0, sense := .minimize }
    vars := [0, 1]
    constraints := [⟨[.lin 1 0, .lin 1 1], .le, 4⟩, ⟨[.lin 1 0, .lin (-1) 1], .eq, 1⟩]
    cones := []
    metadata := [MetaEntry.other 3 11] }

/-- The worked example of §8 with the sense flipped to maximize. -/
def exMax : Problem :=
  { exMain with objective := { exMain.objective with sense := .maximize } }

/-- A constraint-free minimize problem (§8 degenerate example). -/
def exEmpty : Problem :=
  { objective := { cost := [(0, 3)], offset := 1, sense := .minimize }
    vars := [0]
    constraints := []
    cones := []
    metadata := [] }

/-- An input whose single constraint has both defects at once: a strict
relation and a dangling variable reference. -/
def exBoth : Problem :=
  { objective := { cost := [], offset := 0, sense := .minimize }
    vars := []
    constraints := [⟨[.lin 1 7], .lt, 0⟩]
    cones := []
    metadata := [] }

/-- An input whose single constraint references a variable (id 5) missing
from the variable set, with no unsupported construct. -/
def exDangle : Problem :=
  { objective := { cost := [], offset := 0, sense := .minimize }
    vars := []
    constraints := [⟨[.lin 1 5], .eq, 1⟩]
    cones := []
    metadata := [] }

/-- An input containing a constraint with an empty left-hand expression
(a pure feasibility row) next to an ordinary one. -/
def exDegen : Problem :=
  { objective := { cost := [(0, 2)], offset := 0, sense := .minimize }
    vars := [0]
    constraints := [⟨[], .eq, 0⟩, ⟨[.lin 1 0], .le, 5⟩, ⟨[], .ge, -1⟩]
    cones := []
    metadata := [] }

/-! ## Supporting lemmas -/

theorem le_foldr_max {l : List Nat} {v : Nat} (h : v ∈ l) : v ≤ l.foldr Nat.max 0 := by
  induction l with
  | nil => exact absurd h (List.not_mem_nil v)
  | cons a t ih =>
      rw [List.foldr_cons]
      rcases List.mem_cons.mp h with rfl | ht
      · exact Nat.le_max_left _ _
      · exact Nat.le_trans (ih ht) (Nat.le_max_right _ _)

theorem mem_allIds_lt_freshBase {p : Problem} {v : Nat} (h : v ∈ p.allIds) :
    v < p.freshBase :=
  Nat.lt_succ_of_le (le_foldr_max h)

theorem mem_vars_lt_freshBase {p : Problem} {v : Nat} (h : v ∈ p.vars) :
    v < p.freshBase :=
  mem_allIds_lt_freshBase (List.mem_append_left _ (List.mem_append_left _ h))

theorem mem_cost_lt_freshBase {p : Problem} {vc : Nat × Int}
    (h : vc ∈ p.objective.cost) : vc.1 < p.freshBase :=
  mem_allIds_lt_freshBase (List.mem_append_right _ (List.mem_map_of_mem Prod.fst h))

theorem ineqParts_map_snd (p : Problem) :
    p.ineqParts.map Prod.snd = p.constraints.filter Constraint.isIneq := by
  unfold Problem.ineqParts
  conv_rhs => rw [← List.enum_map_snd p.constraints, List.filter_map]
  rfl

theorem ineqParts_length (p : Problem) : p.ineqParts.length = p.countIneq := by
  have h := congrArg List.length (ineqParts_map_snd p)
  simpa using h

theorem eqParts_length (p : Problem) : p.eqParts.length = p.countEq := rfl

theorem transform_eq_ok_iff {p q : Problem} :
    transform p = .ok q ↔
      p.constraints.any Constraint.unsupported = false ∧ p.hasDangling = false ∧
        q = transformCore p := by
  unfold transform
  cases h1 : p.constraints.any Constraint.unsupported with
  | true => simp [h1]
  | false =>
      cases h2 : p.hasDangling with
      | true => simp [h2]
      | false => simp [h2, eq_comm]

theorem costCoeff_eq_zero_of_not_mem {cost : List (Nat × Int)} {v : Nat}
    (h : ∀ vc ∈ cost, vc.1 ≠ v) : costCoeff cost v = 0 := by
  unfold costCoeff
  have hn : cost.find? (fun vc => vc.1 == v) = none := by
    apply List.find?_eq_none.mpr
    intro vc hvc
    simpa using h vc hvc
  rw [hn]

theorem normalizeObjective_sense (o : Objective) :
    (normalizeObjective o).sense = .minimize := by
  rcases o with ⟨c, off, s⟩
  cases s <;> rfl

theorem normalizeObjective_cost_min {o : Objective} (h : o.sense = .minimize) :
    (normalizeObjective o).cost = o.cost := by
  unfold normalizeObjective
  rw [h]

theorem normalizeObjective_cost_max {o : Objective} (h : o.sense = .maximize) :
    (normalizeObjective o).cost = o.cost.map (fun vc => (vc.1, -vc.2)) := by
  unfold normalizeObjective
  rw [h]

theorem costCoeff_normalize_fresh {p : Problem} {s : Nat} (hs : p.freshBase ≤ s) :
    costCoeff (normalizeObjective p.objective).cost s = 0 := by
  apply costCoeff_eq_zero_of_not_mem
  intro vc hvc
  have hlt : vc.1 < p.freshBase := by
    cases hsen : p.objective.sense with
    | minimize =>
        rw [normalizeObjective_cost_min hsen] at hvc
        exact mem_cost_lt_freshBase hvc
    | maximize =>
        rw [normalizeObjective_cost_max hsen] at hvc
        rcases List.mem_map.mp hvc with ⟨wc, hwc, rfl⟩
        simpa using mem_cost_lt_freshBase hwc
  omega

theorem costCoeff_neg_map (cost : List (Nat × Int)) (v : Nat) :
    costCoeff (cost.map (fun vc => (vc.1, -vc.2))) v = -(costCoeff cost v) := by
  unfold costCoeff
  rw [List.find?_map]
  have hp : ((fun vc : Nat × Int => vc.1 == v) ∘ (fun vc : Nat × Int => (vc.1, -vc.2)))
      = (fun vc : Nat × Int => vc.1 == v) := rfl
  rw [hp]
  cases cost.find? (fun vc => vc.1 == v) <;> simp

theorem slackVars_length (p : Problem) : p.slackVars.length = p.countIneq := by
  simp [Problem.slackVars, ineqParts_length]

theorem mem_slackVars {p : Problem} {s : Nat} :
    s ∈ p.slackVars ↔ ∃ j, j < p.countIneq ∧ p.freshBase + j = s := by
  simp [Problem.slackVars, ineqParts_length]

theorem ineqRows_length (p : Problem) : p.ineqRows.length = p.countIneq := by
  simp [Problem.ineqRows, ineqParts_length]

theorem transformCore_constraints (p : Problem) :
    (transformCore p).constraints = p.eqParts ++ p.ineqRows := rfl

theorem transformCore_rel_eq {p : Problem} {c : Constraint}
    (h : c ∈ (transformCore p).constraints) : c.rel = Rel.eq := by
  rw [transformCore_constraints] at h
  rcases List.mem_append.mp h with h | h
  · have hb := (List.mem_filter.mp h).2
    simpa [Constraint.isEq] using hb
  · rcases List.mem_map.mp h with ⟨jc, _, rfl⟩
    rfl

theorem countIneq_transformCore (p : Problem) : (transformCore p).countIneq = 0 := by
  unfold Problem.countIneq
  rw [List.length_eq_zero]
  apply List.filter_eq_nil_iff.mpr
  intro c hc
  have hrel := transformCore_rel_eq hc
  simp [Constraint.isIneq, hrel]

theorem count_split (l : List Constraint) :
    (∀ c ∈ l, c.rel.isStrict = false) →
    (l.filter Constraint.isEq).length + (l.filter Constraint.isIneq).length = l.length := by
  induction l with
  | nil => intro _; rfl
  | cons a t ih =>
      intro h
      have ha : a.rel.isStrict = false := h a (List.mem_cons_self a t)
      have iht := ih (fun c hc => h c (List.mem_cons_of_mem a hc))
      cases hr : a.rel <;>
        simp +decide [List.filter_cons, Constraint.isEq, Constraint.isIneq,
          Rel.isStrict, hr] at ha ⊢ <;>
        omega

theorem not_any_unsupported {p : Problem}
    (h : p.constraints.any Constraint.unsupported = false) :
    ∀ c ∈ p.constraints, c.rel.isStrict = false ∧ c.lhs.any Term.isNonlin = false := by
  intro c hc
  have hc2 : Constraint.unsupported c = false := by
    rw [List.any_eq_false] at h
    simpa using h c hc
  unfold Constraint.unsupported at hc2
  exact Bool.or_eq_false_iff.mp hc2

theorem countEq_add_countIneq {p : Problem}
    (h : p.constraints.any Constraint.unsupported = false) :
    p.countEq + p.countIneq = p.constraints.length :=
  count_split p.constraints (fun c hc => (not_any_unsupported h c hc).1)

theorem slackSign_eq_ite {c : Constraint} (h : c.isIneq = true) :
    c.rel.slackSign = if c.rel = Rel.le then 1 else -1 := by
  unfold Constraint.isIneq at h
  cases hr : c.rel <;> rw [hr] at h <;> simp_all +decide [Rel.slackSign]

theorem transformCore_metadata (p : Problem) :
    (transformCore p).metadata = p.metadata ++ (p.slackMeta ++ p.senseMeta) :=
  List.append_assoc _ _ _

theorem ineqParts_isIneq (p : Problem) {j : Nat} (hj : j < p.ineqParts.length) :
    (p.ineqParts[j]).2.isIneq = true :=
  (List.mem_filter.mp (List.getElem?_mem (List.getElem?_eq_getElem hj))).2

theorem ineqParts_orig (p : Problem) {j : Nat} (hj : j < p.ineqParts.length) :
    p.constraints[(p.ineqParts[j]).1]? = some (p.ineqParts[j]).2 := by
  have hmem : p.ineqParts[j] ∈ p.ineqParts :=
    List.getElem?_mem (List.getElem?_eq_getElem hj)
  have henum : p.ineqParts[j] ∈ p.constraints.enum := (List.mem_filter.mp hmem).1
  exact List.mk_mem_enum_iff_getElem?.mp henum

theorem filterIneq_getElem (p : Problem) {j : Nat} (hj : j < p.ineqParts.length) :
    (p.constraints.filter Constraint.isIneq)[j]? = some (p.ineqParts[j]).2 := by
  rw [← ineqParts_map_snd, List.getElem?_map, List.getElem?_eq_getElem hj]
  rfl

theorem transformCore_ineq_row (p : Problem) {j : Nat} (hj : j < p.ineqParts.length) :
    (transformCore p).constraints[p.countEq + j]? =
      some ⟨(p.ineqParts[j]).2.lhs
            ++ [Term.lin (if (p.ineqParts[j]).2.rel = Rel.le then 1 else -1)
                  (p.freshBase + j)],
        Rel.eq, (p.ineqParts[j]).2.rhs⟩ := by
  have hnlt : ¬ (p.countEq + j < p.eqParts.length) := by
    rw [eqParts_length]; omega
  have hsub : p.countEq + j - p.eqParts.length = j := by
    rw [eqParts_length]; omega
  rw [transformCore_constraints, List.getElem?_append, if_neg hnlt, hsub]
  unfold Problem.ineqRows
  rw [List.getElem?_map, List.getElem?_enum, List.getElem?_eq_getElem hj]
  simp [ineqRow, slackSign_eq_ite (ineqParts_isIneq p hj)]

theorem slackMeta_getElem (p : Problem) {j : Nat} (hj : j < p.ineqParts.length) :
    p.slackMeta[j]? = some (MetaEntry.slack (p.ineqParts[j]).1 (p.freshBase + j)) := by
  unfold Problem.slackMeta
  rw [List.getElem?_map, List.getElem?_enum, List.getElem?_eq_getElem hj]
  rfl

theorem costCoeff_orig_fresh {p : Problem} {s : Nat} (hs : p.freshBase ≤ s) :
    costCoeff p.objective.cost s = 0 := by
  apply costCoeff_eq_zero_of_not_mem
  intro vc hvc
  have := mem_cost_lt_freshBase hvc
  omega

theorem slack_costVector_zero (p : Problem) :
    p.slackVars.map (costCoeff (normalizeObjective p.objective).cost)
      = List.replicate p.countIneq 0 := by
  apply List.eq_replicate_iff.mpr
  refine ⟨by rw [List.length_map, slackVars_length], ?_⟩
  intro b hb
  rcases List.mem_map.mp hb with ⟨s, hs2, rfl⟩
  rcases mem_slackVars.mp hs2 with ⟨j, hj, rfl⟩
  exact costCoeff_normalize_fresh (Nat.le_add_right _ _)

theorem costVector_transformCore_min {p : Problem}
    (hs : p.objective.sense = .minimize) :
    (transformCore p).costVector = p.costVector ++ List.replicate p.countIneq 0 := by
  show (p.vars ++ p.slackVars).map (costCoeff (normalizeObjective p.objective).cost)
      = p.vars.map (costCoeff p.objective.cost) ++ List.replicate p.countIneq 0
  rw [List.map_append, slack_costVector_zero, normalizeObjective_cost_min hs]

theorem costVector_transformCore_max {p : Problem}
    (hs : p.objective.sense = .maximize) :
    (transformCore p).costVector
      = p.costVector.map (fun c => -c) ++ List.replicate p.countIneq 0 := by
  show (p.vars ++ p.slackVars).map (costCoeff (normalizeObjective p.objective).cost)
      = (p.vars.map (costCoeff p.objective.cost)).map (fun c => -c)
          ++ List.replicate p.countIneq 0
  rw [List.map_append, slack_costVector_zero, List.map_map]
  congr 1
  apply List.map_congr_left
  intro v hv
  rw [normalizeObjective_cost_max hs, costCoeff_neg_map]
  rfl

/-! ## Claim theorems -/

/-- C2: For every accepted input, the zero-cone block dimension equals
the number of equality constraints, the nonnegative-orthant block dimension
equals the number of inequality constraints, and the output variable set is
the input variable count plus that same number. -/
theorem transform_block_dims_and_var_count (p q : Problem)
    (h : transform p = .ok q) :
    coneDim q.cones ConeKind.zero = p.countEq ∧
    coneDim q.cones ConeKind.nonneg = p.countIneq ∧
    q.vars.length = p.vars.length + p.countIneq := by
  obtain ⟨hu, hd, rfl⟩ := transform_eq_ok_iff.mp h
  refine ⟨rfl, rfl, ?_⟩
  show (p.vars ++ p.slackVars).length = _
  rw [List.length_append, slackVars_length]

/-- Evaluation of `transform_block_dims_and_var_count` at the §8 example. -/
theorem transform_block_dims_and_var_count_witness :
    coneDim (transformCore exMain).cones ConeKind.zero = exMain.countEq ∧
    coneDim (transformCore exMain).cones ConeKind.nonneg = exMain.countIneq ∧
    (transformCore exMain).vars.length = exMain.vars.length + exMain.countIneq :=
  transform_block_dims_and_var_count exMain (transformCore exMain) rfl

/-- C8: Metadata accumulates monotonically: the input metadata is an
initial segment of the output metadata, so every input entry survives
unmodified and nothing is discarded. -/
theorem transform_metadata_monotone (p q : Problem) (h : transform p = .ok q) :
    (∃ tail, q.metadata = p.metadata ++ tail) ∧
    ∀ m ∈ p.metadata, m ∈ q.metadata := by
  obtain ⟨hu, hd, rfl⟩ := transform_eq_ok_iff.mp h
  refine ⟨⟨p.slackMeta ++ p.senseMeta, transformCore_metadata p⟩, ?_⟩
  intro m hm
  rw [transformCore_metadata]
  exact List.mem_append_left _ hm

/-- Evaluation of `transform_metadata_monotone` at the §8 example. -/
theorem transform_metadata_monotone_witness :
    (∃ tail, (transformCore exMain).metadata = exMain.metadata ++ tail) ∧
    ∀ m ∈ exMain.metadata, m ∈ (transformCore exMain).metadata :=
  transform_metadata_monotone exMain (transformCore exMain) rfl

/-- C9: The transform is deterministic: structurally identical inputs
produce structurally identical outputs.  The embedding is a pure function
of the input `Problem`, with no other state for a previous invocation to
leave behind. -/
theorem transform_deterministic (p₁ p₂ : Problem) (h : p₁ = p₂) :
    transform p₁ = transform p₂ :=
  congrArg transform h

/-- Evaluation of `transform_deterministic` at the §8 example. -/
theorem transform_deterministic_witness :
    transform exMain = transform exMain :=
  transform_deterministic exMain exMain rfl

/-- C1: For every accepted input, the cone descriptor is exactly
`[zero-cone(count_eq), nonneg-orthant(count_ineq)]` with the equality block
first; the rows are the equality constraints in original relative order
followed by the rewritten inequality constraints in original relative
order; and the block sizes add up to exactly the row count. -/
theorem transform_row_and_block_order (p q : Problem) (h : transform p = .ok q) :
    q.cones = [(ConeKind.zero, p.countEq), (ConeKind.nonneg, p.countIneq)] ∧
    q.constraints.length = p.countEq + p.countIneq ∧
    (∀ i, i < p.countEq →
      q.constraints[i]? = (p.constraints.filter Constraint.isEq)[i]?) ∧
    (∀ j, j < p.countIneq → ∃ c,
      (p.constraints.filter Constraint.isIneq)[j]? = some c ∧
      q.constraints[p.countEq + j]? =
        some ⟨c.lhs ++ [Term.lin (if c.rel = Rel.le then 1 else -1) (p.freshBase + j)],
          Rel.eq, c.rhs⟩) := by
  obtain ⟨hu, hd, rfl⟩ := transform_eq_ok_iff.mp h
  refine ⟨rfl, ?_, ?_, ?_⟩
  · rw [transformCore_constraints, List.length_append, eqParts_length, ineqRows_length]
  · intro i hi
    have hi' : i < p.eqParts.length := by rw [eqParts_length]; exact hi
    rw [transformCore_constraints, List.getElem?_append, if_pos hi']
    rfl
  · intro j hj
    have hj' : j < p.ineqParts.length := by rw [ineqParts_length]; exact hj
    exact ⟨(p.ineqParts[j]).2, filterIneq_getElem p hj', transformCore_ineq_row p hj'⟩

/-- Evaluation of `transform_row_and_block_order` at the §8 example: the
equality row comes first, the rewritten inequality row second. -/
theorem transform_row_and_block_order_witness :
    (transformCore exMain).cones
      = [(ConeKind.zero, exMain.countEq), (ConeKind.nonneg, exMain.countIneq)] ∧
    (transformCore exMain).constraints.length = exMain.countEq + exMain.countIneq ∧
    (∀ i, i < exMain.countEq →
      (transformCore exMain).constraints[i]?
        = (exMain.constraints.filter Constraint.isEq)[i]?) ∧
    (∀ j, j < exMain.countIneq → ∃ c,
      (exMain.constraints.filter Constraint.isIneq)[j]? = some c ∧
      (transformCore exMain).constraints[exMain.countEq + j]? =
        some ⟨c.lhs ++ [Term.lin (if c.rel = Rel.le then 1 else -1)
                (exMain.freshBase + j)], Rel.eq, c.rhs⟩) :=
  transform_row_and_block_order exMain (transformCore exMain) rfl

/-- C3: For the `j`-th inequality constraint (some original constraint
index `i`), the stage introduces the fresh slack variable `freshBase + j`
(absent from the input variable set, appended to the output one), rewrites
the constraint as `lhs + slack = rhs` (`<=`) or `lhs - slack = rhs` (`>=`),
records `i ↦ slack` in the output metadata, and gives the slack — like
every output variable not present in the input — a zero cost coefficient. -/
theorem transform_slack_per_inequality (p q : Problem) (h : transform p = .ok q) :
    (∀ j, j < p.countIneq → ∃ i c,
      p.constraints[i]? = some c ∧
      c.isIneq = true ∧
      (p.constraints.filter Constraint.isIneq)[j]? = some c ∧
      (p.freshBase + j) ∉ p.vars ∧
      (p.freshBase + j) ∈ q.vars ∧
      q.constraints[p.countEq + j]? =
        some ⟨c.lhs ++ [Term.lin (if c.rel = Rel.le then 1 else -1) (p.freshBase + j)],
          Rel.eq, c.rhs⟩ ∧
      MetaEntry.slack i (p.freshBase + j) ∈ q.metadata ∧
      costCoeff q.objective.cost (p.freshBase + j) = 0) ∧
    (∀ v ∈ q.vars, v ∉ p.vars → costCoeff q.objective.cost v = 0) := by
  obtain ⟨hu, hd, rfl⟩ := transform_eq_ok_iff.mp h
  constructor
  · intro j hj
    have hj' : j < p.ineqParts.length := by rw [ineqParts_length]; exact hj
    refine ⟨(p.ineqParts[j]).1, (p.ineqParts[j]).2,
      ineqParts_orig p hj', ineqParts_isIneq p hj', filterIneq_getElem p hj',
      ?_, ?_, transformCore_ineq_row p hj', ?_, ?_⟩
    · intro hmem
      have := mem_vars_lt_freshBase hmem
      omega
    · show p.freshBase + j ∈ p.vars ++ p.slackVars
      exact List.mem_append_right _ (mem_slackVars.mpr ⟨j, hj, rfl⟩)
    · rw [transformCore_metadata]
      have hsm : MetaEntry.slack (p.ineqParts[j]).1 (p.freshBase + j) ∈ p.slackMeta :=
        List.getElem?_mem (slackMeta_getElem p hj')
      exact List.mem_append_right _ (List.mem_append_left _ hsm)
    · exact costCoeff_normalize_fresh (Nat.le_add_right _ _)
  · intro v hv hnv
    have hv2 : v ∈ p.vars ++ p.slackVars := hv
    rcases List.mem_append.mp hv2 with hv3 | hv3
    · exact absurd hv3 hnv
    · rcases mem_slackVars.mp hv3 with ⟨j, hj, rfl⟩
      exact costCoeff_normalize_fresh (Nat.le_add_right _ _)

/-- Evaluation of `transform_slack_per_inequality` at the §8 example. -/
theorem transform_slack_per_inequality_witness :
    (∀ j, j < exMain.countIneq → ∃ i c,
      exMain.constraints[i]? = some c ∧
      c.isIneq = true ∧
      (exMain.constraints.filter Constraint.isIneq)[j]? = some c ∧
      (exMain.freshBase + j) ∉ exMain.vars ∧
      (exMain.freshBase + j) ∈ (transformCore exMain).vars ∧
      (transformCore exMain).constraints[exMain.countEq + j]? =
        some ⟨c.lhs ++ [Term.lin (if c.rel = Rel.le then 1 else -1)
                (exMain.freshBase + j)], Rel.eq, c.rhs⟩ ∧
      MetaEntry.slack i (exMain.freshBase + j) ∈ (transformCore exMain).metadata ∧
      costCoeff (transformCore exMain).objective.cost (exMain.freshBase + j) = 0) ∧
    (∀ v ∈ (transformCore exMain).vars, v ∉ exMain.vars →
      costCoeff (transformCore exMain).objective.cost v = 0) :=
  transform_slack_per_inequality exMain (transformCore exMain) rfl

/-- C4: A minimize-sense input keeps its cost vector (the slacks are
appended with zero cost); a maximize-sense input has it negated exactly
once, with the negation recorded in metadata; and a second application to
the (already minimize-sense) output changes the cost vector not at all. -/
theorem transform_sense_normalization (p q : Problem) (h : transform p = .ok q) :
    (p.objective.sense = .minimize →
      q.costVector = p.costVector ++ List.replicate p.countIneq 0) ∧
    (p.objective.sense = .maximize →
      q.costVector = p.costVector.map (fun c => -c) ++ List.replicate p.countIneq 0 ∧
      MetaEntry.negatedCost ∈ q.metadata) ∧
    (p.objective.sense = .minimize →
      ∀ r, transform q = .ok r → r.costVector = q.costVector) := by
  obtain ⟨hu, hd, rfl⟩ := transform_eq_ok_iff.mp h
  refine ⟨fun hs => costVector_transformCore_min hs, ?_, ?_⟩
  · intro hs
    refine ⟨costVector_transformCore_max hs, ?_⟩
    rw [transformCore_metadata]
    have hm : MetaEntry.negatedCost ∈ p.senseMeta := by
      unfold Problem.senseMeta
      rw [hs]
      exact List.mem_singleton.mpr rfl
    exact List.mem_append_right _ (List.mem_append_right _ hm)
  · intro hs r hr
    obtain ⟨hu2, hd2, rfl⟩ := transform_eq_ok_iff.mp hr
    have h2 : (transformCore p).objective.sense = .minimize :=
      normalizeObjective_sense _
    rw [costVector_transformCore_min h2, countIneq_transformCore]
    simp

/-- Evaluation of `transform_sense_normalization`: the minimize conjunct and
the double-application conjunct at the §8 example, the maximize conjunct at
the same example with flipped sense. -/
theorem transform_sense_normalization_witness :
    (transformCore exMain).costVector
        = exMain.costVector ++ List.replicate exMain.countIneq 0 ∧
    ((transformCore exMax).costVector
        = exMax.costVector.map (fun c => -c) ++ List.replicate exMax.countIneq 0 ∧
      MetaEntry.negatedCost ∈ (transformCore exMax).metadata) ∧
    (transformCore (transformCore exMain)).costVector
        = (transformCore exMain).costVector :=
  ⟨(transform_sense_normalization exMain (transformCore exMain) rfl).1 rfl,
   (transform_sense_normalization exMax (transformCore exMax) rfl).2.1 rfl,
   (transform_sense_normalization exMain (transformCore exMain) rfl).2.2 rfl
     (transformCore (transformCore exMain)) rfl⟩

/-- C5 counterexample: On an input with both a dangling variable
reference and a strict inequality in the same constraint, the transform
fails with `UnsupportedProblemShape`, not with `MalformedProblem` — so
"fails with `MalformedProblem` whenever the input violates the data-model
invariants" does not hold as a universal statement. -/
theorem transform_error_precedence_cex :
    exBoth.hasDangling = true ∧
    transform exBoth = .error .UnsupportedProblemShape ∧
    ¬ transform exBoth = .error .MalformedProblem := by
  refine ⟨rfl, rfl, fun h => ?_⟩
  have h2 : (Except.error TransformError.UnsupportedProblemShape :
      Except TransformError Problem) = .error .MalformedProblem := h
  simp at h2

/-- C5 amended: Unsupported constructs (strict relations, nonlinear
terms) cause `UnsupportedProblemShape`; an invariant violation (dangling
variable reference) causes `MalformedProblem` when no unsupported construct
is present — shape errors take precedence; and in every failure case no
output `Problem` is produced. -/
theorem transform_error_cases (p : Problem) :
    (p.constraints.any Constraint.unsupported = true →
      transform p = .error .UnsupportedProblemShape) ∧
    (p.constraints.any Constraint.unsupported = false → p.hasDangling = true →
      transform p = .error .MalformedProblem) ∧
    ((p.constraints.any Constraint.unsupported = true ∨ p.hasDangling = true) →
      ∀ q, transform p ≠ .ok q) := by
  have hA : p.constraints.any Constraint.unsupported = true →
      transform p = .error .UnsupportedProblemShape := by
    intro h1
    simp [transform, h1]
  have hB : p.constraints.any Constraint.unsupported = false → p.hasDangling = true →
      transform p = .error .MalformedProblem := by
    intro h1 h2
    simp [transform, h1, h2]
  refine ⟨hA, hB, ?_⟩
  rintro (h1 | h2) q hq
  · rw [hA h1] at hq
    exact Except.noConfusion hq
  · cases hu : p.constraints.any Constraint.unsupported with
    | true =>
        rw [hA hu] at hq
        exact Except.noConfusion hq
    | false =>
        rw [hB hu h2] at hq
        exact Except.noConfusion hq

/-- Evaluation of `transform_error_cases`: the shape error on `exBoth`, the
invariant error on `exDangle`, and no output on `exBoth`. -/
theorem transform_error_cases_witness :
    transform exBoth = .error .UnsupportedProblemShape ∧
    transform exDangle = .error .MalformedProblem ∧
    transform exBoth ≠ .ok (transformCore exBoth) :=
  ⟨(transform_error_cases exBoth).1 (by decide),
   (transform_error_cases exDangle).2.1 (by decide) (by decide),
   (transform_error_cases exBoth).2.2 (Or.inl (by decide)) (transformCore exBoth)⟩

/-- C6 counterexample: On a constraint-free input the transform
succeeds, but the cone descriptor is the two zero-dimension blocks
`[zero-cone(0), nonneg-orthant(0)]` assembled by §4.2 step 4, not the empty
list. -/
theorem transform_empty_cones_cex :
    (transform exEmpty).map Problem.cones
        = .ok [(ConeKind.zero, 0), (ConeKind.nonneg, 0)] ∧
    ([(ConeKind.zero, 0), (ConeKind.nonneg, 0)] : List (ConeKind × Nat)) ≠ [] :=
  ⟨rfl, by simp⟩

/-- C6 amended: A zero-constraint input is accepted and yields a cone
descriptor of total dimension zero (the two zero-dimension blocks), no
rows, an unchanged variable set, and — for a minimize-sense input — an
unchanged objective and cost vector. -/
theorem transform_zero_constraints (p q : Problem) (h : transform p = .ok q)
    (hc : p.constraints = []) :
    q.cones = [(ConeKind.zero, 0), (ConeKind.nonneg, 0)] ∧
    q.constraints = [] ∧
    q.vars = p.vars ∧
    (p.objective.sense = .minimize →
      q.objective = p.objective ∧ q.costVector = p.costVector) := by
  obtain ⟨hu, hd, rfl⟩ := transform_eq_ok_iff.mp h
  have hce : p.countEq = 0 := by unfold Problem.countEq; rw [hc]; rfl
  have hci : p.countIneq = 0 := by unfold Problem.countIneq; rw [hc]; rfl
  refine ⟨?_, ?_, ?_, ?_⟩
  · show [(ConeKind.zero, p.countEq), (ConeKind.nonneg, p.countIneq)] = _
    rw [hce, hci]
  · show p.eqParts ++ p.ineqRows = []
    have h1 : p.eqParts = [] := by unfold Problem.eqParts; rw [hc]; rfl
    have h2 : p.ineqRows = [] := by
      unfold Problem.ineqRows Problem.ineqParts
      rw [hc]
      rfl
    rw [h1, h2]
    rfl
  · show p.vars ++ p.slackVars = p.vars
    have h2 : p.slackVars = [] := by
      unfold Problem.slackVars Problem.ineqParts
      rw [hc]
      rfl
    rw [h2, List.append_nil]
  · intro hs
    constructor
    · show normalizeObjective p.objective = p.objective
      have hn : normalizeObjective p.objective = { p.objective with sense := .minimize } := by
        unfold normalizeObjective
        rw [hs]
      rw [hn, ← hs]
    · rw [costVector_transformCore_min hs, hci]
      simp

/-- Evaluation of `transform_zero_constraints` at the §8 degenerate
example. -/
theorem transform_zero_constraints_witness :
    (transformCore exEmpty).cones = [(ConeKind.zero, 0), (ConeKind.nonneg, 0)] ∧
    (transformCore exEmpty).constraints = [] ∧
    (transformCore exEmpty).vars = exEmpty.vars ∧
    (exEmpty.objective.sense = .minimize →
      (transformCore exEmpty).objective = exEmpty.objective ∧
      (transformCore exEmpty).costVector = exEmpty.costVector) :=
  transform_zero_constraints exEmpty (transformCore exEmpty) rfl rfl

/-- C7: A constraint whose left-hand expression references no variables
still emits a row: on any accepted input the output row count equals the
input constraint count, and every equality constraint (empty-lhs ones
included) appears among the output rows. -/
theorem transform_keeps_degenerate_rows (p q : Problem) (h : transform p = .ok q)
    (_hdeg : ∃ c ∈ p.constraints, c.lhs = ([] : List Term)) :
    q.constraints.length = p.constraints.length ∧
    (∀ c ∈ p.constraints, c.isEq = true → c ∈ q.constraints) := by
  obtain ⟨hu, hd, rfl⟩ := transform_eq_ok_iff.mp h
  constructor
  · rw [transformCore_constraints, List.length_append, eqParts_length, ineqRows_length]
    exact countEq_add_countIneq hu
  · intro c hc hceq
    rw [transformCore_constraints]
    exact List.mem_append_left _ (List.mem_filter.mpr ⟨hc, hceq⟩)

/-- Evaluation of `transform_keeps_degenerate_rows` at an input with two
empty-lhs constraints (`0 = 0`, `0 ≥ -1`). -/
theorem transform_keeps_degenerate_rows_witness :
    (transformCore exDegen).constraints.length = exDegen.constraints.length ∧
    (∀ c ∈ exDegen.constraints, c.isEq = true →
      c ∈ (transformCore exDegen).constraints) :=
  transform_keeps_degenerate_rows exDegen (transformCore exDegen) rfl (by decide)

end CVX
